import Mathlib

/-!
Verification of the poetry2uv converter (poetry2uv/convert_poetry_to_uv.py).

The development embeds the version-constraint translator
(`PyProject.convert_version_entry`, `PyProject.convert_version_constraint`,
`PyProject.increment_version`), the git-source handler
(`PyProject.handle_git_entry`) and the dependency-list / document pipeline
(`PyProject.convert_deps_list`, `PyProject.convert_to_pep508`) as pure Lean
functions over character lists, with Python exceptions modelled by `Except`.
-/

namespace P2U

/-- Exceptions that the modelled Python code can raise.  Python raises
`ValueError` both at the explicit raise site (line 111) and inside `int()`;
the two are distinguished by their message text. -/
inductive PyError where
  | valueError (msg : String)
  | keyError (key : String)
  | notImplementedError (msg : String)
  | typeError (msg : String)
  | indexError (msg : String)
  deriving DecidableEq, Repr

deriving instance DecidableEq for Except

/-- Single-quote character, built by code point to keep source text plain. -/
def sq : String := String.mk [Char.ofNat 39]

/-- Message of the `ValueError` raised by Python `int()` on a bad literal,
for example: invalid literal for int() with base 10: ... -/
def intLiteralErr (cs : List Char) : PyError :=
  .valueError ("invalid literal for int() with base 10: " ++ sq ++ String.mk cs ++ sq)

/-- Characters matched by the regex class `[=^~]` (group 1 of
`PyProject.version_pattern`). -/
def isSymChar (c : Char) : Bool := c == '=' || c == '^' || c == '~'

/-- Characters matched by the regex class `[\d.*]` (group 2 of
`PyProject.version_pattern`). -/
def isNumChar (c : Char) : Bool := c.isDigit || c == '.' || c == '*'

/-- Characters matched by `\w` (ASCII range; the inputs handled here are
ASCII). -/
def isWordChar (c : Char) : Bool := c.isAlphanum || c == '_'

/-- Greedy match of the optional tail `(?:-\w+(?:\.\d)?)?` of
`PyProject.version_pattern`; returns the matched text and the rest.
Nothing follows this part in the pattern, so greedy matching needs no
backtracking. -/
def matchTail : List Char → List Char × List Char
  | [] => ([], [])
  | c :: rest =>
    if c = '-' then
      let w := rest.takeWhile isWordChar
      if w = [] then ([], c :: rest)
      else
        match rest.drop w.length with
        | c2 :: d :: t =>
          if c2 = '.' ∧ d.isDigit then ('-' :: (w ++ ['.', d]), t)
          else ('-' :: w, c2 :: d :: t)
        | other => ('-' :: w, other)
    else ([], c :: rest)

/-- Model of `PyProject.version_pattern.match`, the anchored Python regex
`^([=^~]{0,2})([\d.*]+(?:-\w+(?:\.\d)?)?)`.  Returns `(group 1, group 2)`
on success.  The classes `[=^~]` and `[\d.*]` are disjoint, so the greedy
`{0,2}` never succeeds after backtracking: the maximal symbol run (capped
at 2) must be followed by a `[\d.*]` character or the whole match fails. -/
def versionPatternMatch (s : List Char) : Option (List Char × List Char) :=
  let syms := (s.takeWhile isSymChar).take 2
  let rest := s.drop syms.length
  match rest with
  | c :: _ =>
    if isNumChar c then
      let nums := rest.takeWhile isNumChar
      let rest2 := rest.drop nums.length
      some (syms, nums ++ (matchTail rest2).1)
    else none
  | [] => none

/-- Numeric value of a list of decimal digit characters, most significant
first. -/
def digitsToNat (cs : List Char) : Nat :=
  cs.foldl (fun a c => 10 * a + (c.toNat - 48)) 0

/-- Parse a nonempty all-digit string as a natural number. -/
def pyIntCore (cs : List Char) : Option Nat :=
  if cs ≠ [] ∧ cs.all Char.isDigit then some (digitsToNat cs) else none

/-- Model of Python `int(str)` on the component strings that arise here:
an optional sign followed by decimal digits.  (Whitespace and underscore
forms of Python integer literals cannot occur in strings produced by the
version regex, see `version_pattern`.) -/
def pyInt (cs : List Char) : Option Int :=
  match cs with
  | [] => none
  | c :: ds =>
    if c = '-' then (pyIntCore ds).map (fun n => -(n : Int))
    else if c = '+' then (pyIntCore ds).map (fun n => (n : Int))
    else (pyIntCore (c :: ds)).map (fun n => (n : Int))

/-- Decimal digit character for `d < 10`. -/
def digitChar (d : Nat) : Char := Char.ofNat (48 + d)

/-- Fuel-driven rendering of the decimal digits of `n` (most significant
first); `fuel` bounds the recursion depth and any `fuel > n` is enough. -/
def renderNatAux : Nat → Nat → List Char
  | 0, _ => []
  | fuel + 1, n => if n = 0 then [] else renderNatAux fuel (n / 10) ++ [digitChar (n % 10)]

/-- Model of Python `str(n)` for a natural number. -/
def renderNat (n : Nat) : List Char :=
  if n = 0 then ['0'] else renderNatAux (n + 1) n

/-- Model of Python `str(n)` for an integer. -/
def renderInt : Int → List Char
  | .ofNat n => renderNat n
  | .negSucc n => '-' :: renderNat (n + 1)

/-- Model of Python `str.split(sep)` for a one-character separator: always
returns at least one (possibly empty) group. -/
def pySplit (sep : Char) : List Char → List (List Char)
  | [] => [[]]
  | c :: rest =>
    match pySplit sep rest with
    | [] => [[]]
    | g :: gs => if c = sep then [] :: g :: gs else (c :: g) :: gs

/-- Model of Python `sep.join(groups)` for a one-character separator. -/
def joinSep (sep : Char) : List (List Char) → List Char
  | [] => []
  | [g] => g
  | g :: gs => g ++ sep :: joinSep sep gs

/-- Model of the generator
`next((i for i, value in enumerate(split_numbers) if int(value) != 0), -1)`
at line 89: scans left to right, converting each component with `int` (a
conversion failure raises) until a non-zero value is found; yields `-1`
when every component is zero. -/
def firstNonzeroFrom : List (List Char) → Nat → Except PyError Int
  | [], _ => .ok (-1)
  | v :: rest, i =>
    match pyInt v with
    | none => .error (intLiteralErr v)
    | some n => if n = 0 then firstNonzeroFrom rest (i + 1) else .ok (Int.ofNat i)

/-- Set every component at position `k` or later to the string `0`
(the loop `for i in range(increment_index + 1, len(...))` of
`increment_version`, with `k = increment_index + 1` clamped at 0 exactly
as Python `range` does for negative starts). -/
def zeroFrom : Nat → List (List Char) → List (List Char)
  | _, [] => []
  | 0, _ :: rest => ['0'] :: zeroFrom 0 rest
  | k + 1, v :: rest => v :: zeroFrom k rest

/-- Python list indexing: a negative index counts from the end. -/
def pyIdx (len : Nat) (i : Int) : Nat := (if i < 0 then i + Int.ofNat len else i).toNat

/-- Model of `PyProject.increment_version(version_split, increment_index)`
(lines 68-79), returning the updated list instead of mutating.  The
pre-release branch fires only when the raw index equals 2 and that
component contains a dash; afterwards every later component is zeroed
(`range(increment_index + 1, ...)` uses the raw, possibly negative,
index). -/
def incrementVersion (split : List (List Char)) (idx : Int) : Except PyError (List (List Char)) :=
  let e := pyIdx split.length idx
  match split.get? e with
  | none => .error (.indexError "list index out of range")
  | some comp =>
    if idx = 2 ∧ comp.contains '-' then
      let parts := pySplit '-' comp
      match parts.getLast? with
      | none => .error (.indexError "list index out of range")
      | some lastPart =>
        match pyInt lastPart with
        | none => .error (intLiteralErr lastPart)
        | some n =>
          .ok (zeroFrom (idx + 1).toNat (split.set e (joinSep '-' (parts.dropLast ++ [renderInt (n + 1)]))))
    else
      match pyInt comp with
      | none => .error (intLiteralErr comp)
      | some n => .ok (zeroFrom (idx + 1).toNat (split.set e (renderInt (n + 1))))

/-- Model of `PyProject.convert_version_constraint` (lines 81-113).  Note
that the first-nonzero scan at line 89 runs for every regex match, before
the dispatch on the captured symbols. -/
def convertVersionConstraint (vc : List Char) : Except PyError (List Char) :=
  match versionPatternMatch vc with
  | some (symbols, numbers) =>
    let splitNumbers := pySplit '.' numbers
    match firstNonzeroFrom splitNumbers 0 with
    | .error e => .error e
    | .ok iNonzero =>
      if symbols = [] ∨ symbols = ['='] then
        .ok ('=' :: '=' :: numbers)
      else if symbols = ['^'] then
        match incrementVersion splitNumbers iNonzero with
        | .error e => .error e
        | .ok s2 =>
          .ok (">=".toList ++ numbers ++ ",<".toList ++ joinSep '.' (s2.take (iNonzero + 1).toNat))
      else if symbols = ['~'] then
        if 3 ≤ splitNumbers.length ∧ iNonzero < 2 then
          match incrementVersion splitNumbers 1 with
          | .error e => .error e
          | .ok s2 =>
            .ok (">=".toList ++ numbers ++ ",<".toList ++ joinSep '.' (s2.set 2 ['0']))
        else
          match incrementVersion splitNumbers (Int.ofNat (splitNumbers.length - 1)) with
          | .error e => .error e
          | .ok s2 =>
            .ok (">=".toList ++ numbers ++ ",<".toList ++ joinSep '.' s2)
      else .ok (symbols ++ numbers)
  | none =>
    if vc.head? = some '~' ∨ vc.head? = some '^' then
      .error (.valueError ("Invalid version constraint: " ++ String.mk vc))
    else .ok vc

/-- Left-to-right conversion of the comma groups, stopping at the first
failure exactly like the Python generator inside the join at line 66. -/
def convertGroupList : List (List Char) → Except PyError (List (List Char))
  | [] => .ok []
  | g :: gs =>
    match convertVersionConstraint g with
    | .error e => .error e
    | .ok r =>
      match convertGroupList gs with
      | .error e => .error e
      | .ok rs => .ok (r :: rs)

/-- Model of the string branch of `PyProject.convert_version_entry`
(lines 46-66): the wildcard check, the comma split, the per-group
conversion and the comma join. -/
def convertVersionEntry (entry : List Char) : Except PyError (List Char) :=
  if entry = "*".toList then .ok []
  else
    match convertGroupList (pySplit ',' entry) with
    | .error e => .error e
    | .ok parts => .ok (joinSep ',' parts)

/-- String-level wrapper: the translator of the spec,
`translate(expression)`. -/
def translate (s : String) : Except PyError String :=
  (convertVersionEntry s.toList).map String.mk

/-- TOML values as they occur in Poetry dependency tables: strings,
booleans, arrays of strings, arrays of tables (multi-constraint sources),
and inline tables. -/
inductive TomlVal where
  | vs (v : String)
  | vb (v : Bool)
  | varrS (vs : List String)
  | varrT (vs : List (List (String × TomlVal)))
  | vtbl (t : List (String × TomlVal))

/-- Python truthiness for the modelled TOML values (`elif dep_v:` at line
231 and `if vers and not optional` at line 224). -/
def tomlTruthy : TomlVal → Bool
  | .vs v => v ≠ ""
  | .vb v => v
  | .varrS vs => vs ≠ []
  | .varrT vs => !vs.isEmpty
  | .vtbl t => !t.isEmpty

/-- Index (from the start) of the last occurrence of `c` in `s`, the
Python `str.rfind`. -/
def lastIdx (c : Char) (s : List Char) : Option Nat :=
  (List.range s.length).reverse.find? (fun i => s.get? i = some c)

/-- Model of `os.path.basename`: everything after the last slash. -/
def pyBasename (p : List Char) : List Char :=
  match lastIdx '/' p with
  | none => p
  | some i => p.drop (i + 1)

/-- Root part of `os.path.splitext` on a slash-free name, following
CPython: the extension starts at the last dot, provided some earlier
character of the name is not a dot. -/
def pySplitextRoot (b : List Char) : List Char :=
  match lastIdx '.' b with
  | none => b
  | some d => if (b.take d).any (fun ch => ch ≠ '.') then b.take d else b

/-- Package name extracted from a git URL at line 138:
`os.path.splitext(os.path.basename(git_entry["git"]))[0]`. -/
def gitPackageName (url : String) : String :=
  String.mk (pySplitextRoot (pyBasename url.toList))

/-- The class attribute `PyProject.git_source_keys` (line 25). -/
def gitSourceKeys : List String := ["git", "rev", "tag", "branch"]

/-- Association-list lookup used to model Python dict access (dict keys
are unique, so first match is the match). -/
def lookupA (k : String) : List (String × TomlVal) → Option TomlVal
  | [] => none
  | (k2, v) :: rest => if k2 = k then some v else lookupA k rest

/-- Removal of a key, modelling `dict.pop` on a dict (whose keys are
unique). -/
def stripKey (k : String) (t : List (String × TomlVal)) : List (String × TomlVal) :=
  t.filter (fun kv => kv.1 ≠ k)

/-- The running `self.sources` map: package name to inline source
table. -/
abbrev Sources := List (String × List (String × TomlVal))

/-- Dict assignment `self.sources[name] = source`: replace the value if
the key exists, else append. -/
def setA (k : String) (v : List (String × TomlVal)) : Sources → Sources
  | [] => [(k, v)]
  | (k2, v2) :: rest => if k2 = k then (k, v) :: rest else (k2, v2) :: setA k v rest

/-- Like `setA` but for the group-name-to-deps map built by
`convert_to_pep508`. -/
def setG (k : String) (v : List String) : List (String × List String) → List (String × List String)
  | [] => [(k, v)]
  | (k2, v2) :: rest => if k2 = k then (k, v) :: rest else (k2, v2) :: setG k v rest

/-- Model of `PyProject.handle_git_entry` (lines 135-147): derive the
package name from the git URL, refuse a duplicate name, and record the
source table holding exactly the `git_source_keys` present in the entry.
(The duplicate message also embeds the existing table and new URL in the
source; the model keeps the leading text.) -/
def handleGitEntry (sources : Sources) (entry : List (String × TomlVal)) :
    Except PyError (String × Sources) :=
  match lookupA "git" entry with
  | none => .error (.keyError "git")
  | some (.vs url) =>
    let pkg := gitPackageName url
    match sources.lookup pkg with
    | some _ => .error (.notImplementedError ("Can not handle duped sources with name " ++ pkg ++ "!"))
    | none => .ok (pkg, sources ++ [(pkg, entry.filter (fun kv => gitSourceKeys.contains kv.1))])
  | some _ => .error (.typeError "expected str, bytes or os.PathLike object")

/-- Contiguous-substring test, the Python `needle in haystack` on
strings (line 59). -/
def strContainsSub (hay needle : List Char) : Bool :=
  (List.range (hay.length + 1)).any (fun i => needle == (hay.drop i).take needle.length)

/-- Python list repr of a list of strings (single-quoted items), the
`str(...)` at line 219. -/
def pyListRepr (xs : List String) : String :=
  "[" ++ String.intercalate ", " (xs.map (fun s => sq ++ s ++ sq)) ++ "]"

/-- Model of `str.replace` removing every single quote (line 219). -/
def stripQuotes (s : String) : String :=
  String.mk (s.toList.filter (fun c => c ≠ Char.ofNat 39))

/-- Python `str()` of a TOML value as needed by the extras handling at
line 219 (arrays of strings are the shape that occurs there). -/
def pyStr : TomlVal → String
  | .vs v => v
  | .vb true => "True"
  | .vb false => "False"
  | .varrS xs => pyListRepr xs
  | .varrT _ => "[]"
  | .vtbl _ => "{}"

/-- Model of the full `PyProject.convert_version_entry` (lines 46-66)
including the `Array` branch, threading `self.sources`; the model fixes
`prompt_for_version = False`, so a multi-element array also takes its
first element (line 58).  A bool or table value reaches
`version_entry.split` and raises (`AttributeError`). -/
def convertVersionEntryFull (sources : Sources) : TomlVal → Except PyError (String × Sources)
  | .vs s => (convertVersionEntry s.toList).map (fun cs => (String.mk cs, sources))
  | .varrT ts =>
    match ts with
    | [] => .error (.indexError "array index out of range")
    | t :: _ =>
      match lookupA "git" t with
      | none => .error (.notImplementedError "Only git sources are supported currently")
      | some _ => (handleGitEntry sources t).map (fun r => ("", r.2))
  | .varrS ss =>
    match ss with
    | [] => .error (.indexError "array index out of range")
    | s :: _ =>
      if strContainsSub s.toList "git".toList then
        .error (.typeError "string indices must be integers")
      else .error (.notImplementedError "Only git sources are supported currently")
  | .vb _ => .error (.typeError "has no attribute split")
  | .vtbl _ => .error (.typeError "has no attribute split")

/-- Accumulator for `convert_deps_list`: the `deps` array, the `members`
array and the `self.sources` map. -/
structure DLAcc where
  deps : List String
  members : List String
  sources : Sources

/-- Processing of one dict-valued dependency entry, the
`isinstance(dep_v, dict)` body of `convert_deps_list` (lines 188-229).
`resolve` models `get_package_name_from_path_dependency`, which reads the
referenced local manifest from disk. -/
def processTableDep (resolve : String → String) (name : String)
    (t0 : List (String × TomlVal)) (acc : DLAcc) : Except PyError DLAcc :=
  if (lookupA "git" t0).isSome then
    match handleGitEntry acc.sources t0 with
    | .error e => .error e
    | .ok (pkg, s2) => .ok { acc with deps := acc.deps ++ [pkg], sources := s2 }
  else
    let (acc1, t1) :=
      match lookupA "url" t0 with
      | some u =>
        ({ acc with
            sources := setA name [("url", u)] acc.sources,
            deps := acc.deps ++ [name] },
          stripKey "url" t0)
      | none => (acc, t0)
    match lookupA "path" t1 with
    | some (.vs member) =>
      let memberName := resolve member
      let acc2 : DLAcc :=
        { acc1 with
            members := acc1.members ++ [member],
            deps := acc1.deps ++ [memberName],
            sources := setA memberName [("path", .vs member)] acc1.sources }
      processTail (stripKey "develop" (stripKey "path" t1)) acc2
    | some _ => .error (.typeError "expected str, bytes or os.PathLike object")
    | none => processTail t1 acc1
where
  /-- The extras / version / optional / leftover-keys tail of the dict
  branch (lines 217-229). -/
  processTail (t2 : List (String × TomlVal)) (acc2 : DLAcc) : Except PyError DLAcc :=
    let (vers0, t3) :=
      match lookupA "extras" t2 with
      | some ev => (stripQuotes (pyStr ev), stripKey "extras" t2)
      | none => ("", t2)
    let step : Except PyError (String × List (String × TomlVal) × Sources) :=
      match lookupA "version" t3 with
      | some vv =>
        match convertVersionEntryFull acc2.sources vv with
        | .error e => .error e
        | .ok (cv, s3) => .ok (vers0 ++ cv, stripKey "version" t3, s3)
      | none => .ok (vers0, t3, acc2.sources)
    match step with
    | .error e => .error e
    | .ok (vers, t4, s4) =>
      let optionalV := (lookupA "optional" t4).getD (.vb false)
      let t5 := stripKey "optional" t4
      let acc3 : DLAcc :=
        if vers ≠ "" ∧ ¬ tomlTruthy optionalV then
          { deps := acc2.deps ++ [name ++ vers], members := acc2.members, sources := s4 }
        else
          { deps := acc2.deps, members := acc2.members, sources := s4 }
      if t5.isEmpty then .ok acc3
      else .error (.notImplementedError ("Remaining keys in deps entry: " ++
        String.intercalate ", " (t5.map (fun kv => kv.1))))

/-- Model of `PyProject.convert_deps_list` (lines 175-235): walk the
dependency table, skipping the entry named `python`, handling dict
entries via `processTableDep` and truthy plain values via
`convert_version_entry`. -/
def convertDepsList (resolve : String → String) (acc : DLAcc) :
    List (String × TomlVal) → Except PyError DLAcc
  | [] => .ok acc
  | (name, v) :: rest =>
    if name = "python" then convertDepsList resolve acc rest
    else
      match v with
      | .vtbl t =>
        match processTableDep resolve name t acc with
        | .error e => .error e
        | .ok acc2 => convertDepsList resolve acc2 rest
      | other =>
        if tomlTruthy other then
          match convertVersionEntryFull acc.sources other with
          | .error e => .error e
          | .ok (cv, s2) =>
            convertDepsList resolve
              { deps := acc.deps ++ [name ++ cv], members := acc.members, sources := s2 } rest
        else convertDepsList resolve acc rest

/-- Conversion of the named optional dependency groups (lines 298-302):
each group contributes its converted deps list; the group members arrays
are discarded. -/
def convertGroups (resolve : String → String) (sources : Sources) :
    List (String × List (String × TomlVal)) →
      Except PyError (List (String × List String) × Sources)
  | [] => .ok ([], sources)
  | (gname, gdeps) :: rest =>
    match convertDepsList resolve ⟨[], [], sources⟩ gdeps with
    | .error e => .error e
    | .ok accG =>
      match convertGroups resolve accG.sources rest with
      | .error e => .error e
      | .ok (gs, s2) => .ok ((gname, accG.deps) :: gs, s2)

/-- Dependency-related fields of the Poetry input document consumed by
`convert_to_pep508`: the main dependency table, the dev dependency table,
and the named groups (each given by its `dependencies` sub-table). -/
structure PoetryIn where
  dependencies : List (String × TomlVal)
  devDependencies : List (String × TomlVal)
  groups : List (String × List (String × TomlVal))

/-- Dependency-related fields of the emitted document. -/
structure ProjectOut where
  requiresPython : String
  dependencies : List String
  members : List String
  sources : Sources
  dependencyGroups : List (String × List String)

/-- Model of the dependency-handling core of `PyProject.convert_to_pep508`
(lines 282-328): reset `self.sources`, translate the mandatory `python`
entry into `requires-python` (a missing entry raises `KeyError`), convert
the main, dev and group dependency lists in order, and register the `dev`
group last.  File reading and writing and the unrelated metadata fields
(name, version, description, authors, extras passthrough) are outside the
model. -/
def convertToPep508Core (resolve : String → String) (pd : PoetryIn) :
    Except PyError ProjectOut :=
  match lookupA "python" pd.dependencies with
  | none => .error (.keyError "python")
  | some pyV =>
    match convertVersionEntryFull [] pyV with
    | .error e => .error e
    | .ok (pythonVersion, s0) =>
      match convertDepsList resolve ⟨[], [], s0⟩ pd.dependencies with
      | .error e => .error e
      | .ok accMain =>
        match convertDepsList resolve ⟨[], [], accMain.sources⟩ pd.devDependencies with
        | .error e => .error e
        | .ok accDev =>
          match convertGroups resolve accDev.sources pd.groups with
          | .error e => .error e
          | .ok (groupsOut, s2) =>
            .ok { requiresPython := pythonVersion,
                  dependencies := accMain.deps,
                  members := accMain.members ++ accDev.members,
                  sources := s2,
                  dependencyGroups := setG "dev" accDev.deps groupsOut }

/-- Pre-release suffixes in the language of the regex tail
`(?:-\w+(?:\.\d)?)?`: empty, a dash followed by a word, or a dash, a
word, a dot and one digit. -/
inductive SuffixForm : List Char → Prop where
  | empty : SuffixForm []
  | word (w : List Char) (hw : w ≠ []) (hall : ∀ c ∈ w, isWordChar c = true) :
      SuffixForm ('-' :: w)
  | wordDot (w : List Char) (d : Char) (hw : w ≠ []) (hall : ∀ c ∈ w, isWordChar c = true)
      (hd : d.isDigit = true) : SuffixForm ('-' :: (w ++ ['.', d]))

/-- First position of a non-zero value, the specification-level counterpart
of the scan at line 89. -/
def specFirstNonzeroAux : List Nat → Option Nat
  | [] => none
  | v :: rest => if v = 0 then (specFirstNonzeroAux rest).map (· + 1) else some 0

/-- Upper-bound version computed by the tilde branch (lines 98-107), at
the level of numeric components: when at least three components are given
and every component before index 2 scan-wise is zero or the first
non-zero index is 0 or 1, the minor is incremented and everything later
zeroed; otherwise the last component is incremented. -/
def specTildeUpper (nums : List Nat) : List Nat :=
  if 3 ≤ nums.length ∧ ((specFirstNonzeroAux nums).getD 0) < 2 then
    match nums with
    | n0 :: n1 :: rest => n0 :: (n1 + 1) :: rest.map (fun _ => 0)
    | [n] => [n]
    | [] => []
  else
    nums.dropLast ++ [(nums.getLast?).getD 0 + 1]

/-! Character-class facts -/

theorem isDigit_ne (c d : Char) (hd : d.isDigit = false) (h : c.isDigit = true) : c ≠ d := by
  intro e
  subst e
  rw [hd] at h
  exact Bool.false_ne_true h

theorem digit_not_sym (c : Char) (h : c.isDigit = true) : isSymChar c = false := by
  have h1 := isDigit_ne c '=' (by decide) h
  have h2 := isDigit_ne c '^' (by decide) h
  have h3 := isDigit_ne c '~' (by decide) h
  simp [isSymChar, h1, h2, h3]

theorem digit_isNumChar (c : Char) (h : c.isDigit = true) : isNumChar c = true := by
  simp [isNumChar, h]

theorem num_not_sym (c : Char) (h : isNumChar c = true) : isSymChar c = false := by
  simp only [isNumChar, Bool.or_eq_true, beq_iff_eq] at h
  rcases h with (h | h) | h
  · exact digit_not_sym c h
  · subst h; decide
  · subst h; decide

/-! Decimal rendering facts -/

theorem digitChar_spec (d : Nat) (hd : d < 10) :
    (digitChar d).isDigit = true ∧ (digitChar d).toNat = 48 + d := by
  interval_cases d <;> exact ⟨by decide, by decide⟩

theorem renderNatAux_all_digit (fuel n : Nat) :
    ∀ c ∈ renderNatAux fuel n, c.isDigit = true := by
  induction fuel generalizing n with
  | zero => intro c hc; simp [renderNatAux] at hc
  | succ fuel ih =>
    intro c hc
    rw [renderNatAux] at hc
    by_cases h : n = 0
    · simp [h] at hc
    · rw [if_neg h] at hc
      rcases List.mem_append.mp hc with h2 | h2
      · exact ih (n / 10) c h2
      · rcases List.mem_singleton.mp h2 with rfl
        exact (digitChar_spec (n % 10) (Nat.mod_lt n (by norm_num))).1

theorem renderNat_all_digit (n : Nat) : ∀ c ∈ renderNat n, c.isDigit = true := by
  rw [renderNat]
  by_cases h : n = 0
  · rw [if_pos h]; intro c hc; rcases List.mem_singleton.mp hc with rfl; decide
  · rw [if_neg h]; exact renderNatAux_all_digit (n + 1) n

theorem renderNatAux_ne_nil (fuel n : Nat) (hn : n ≠ 0) (hf : n < fuel) :
    renderNatAux fuel n ≠ [] := by
  cases fuel with
  | zero => omega
  | succ fuel =>
    rw [renderNatAux, if_neg hn]
    intro h
    rcases List.append_eq_nil.mp h with ⟨-, h2⟩
    exact List.cons_ne_nil _ _ h2

theorem renderNat_ne_nil (n : Nat) : renderNat n ≠ [] := by
  rw [renderNat]
  by_cases h : n = 0
  · rw [if_pos h]; exact List.cons_ne_nil _ _
  · rw [if_neg h]; exact renderNatAux_ne_nil (n + 1) n h (Nat.lt_succ_self n)

theorem digitsToNat_concat (xs : List Char) (c : Char) :
    digitsToNat (xs ++ [c]) = 10 * digitsToNat xs + (c.toNat - 48) := by
  simp [digitsToNat, List.foldl_append]

theorem renderNatAux_val (fuel n : Nat) (hf : n < fuel) :
    digitsToNat (renderNatAux fuel n) = n := by
  induction fuel generalizing n with
  | zero => omega
  | succ fuel ih =>
    rw [renderNatAux]
    by_cases h : n = 0
    · simp [h, digitsToNat]
    · have hlt : n / 10 < fuel := by
        have h10 : n / 10 < n := Nat.div_lt_self (Nat.pos_of_ne_zero h) (by norm_num)
        omega
      rw [if_neg h, digitsToNat_concat, ih (n / 10) hlt,
        (digitChar_spec (n % 10) (Nat.mod_lt n (by norm_num))).2]
      omega

theorem digitsToNat_renderNat (n : Nat) : digitsToNat (renderNat n) = n := by
  rw [renderNat]
  by_cases h : n = 0
  · simp [h, digitsToNat]
  · rw [if_neg h]; exact renderNatAux_val (n + 1) n (Nat.lt_succ_self n)

theorem pyIntCore_renderNat (n : Nat) : pyIntCore (renderNat n) = some n := by
  rw [pyIntCore, if_pos ⟨renderNat_ne_nil n, List.all_eq_true.mpr (renderNat_all_digit n)⟩,
    digitsToNat_renderNat]

theorem pyInt_renderNat (n : Nat) : pyInt (renderNat n) = some (Int.ofNat n) := by
  rcases hr : renderNat n with _ | ⟨c, t⟩
  · exact absurd hr (renderNat_ne_nil n)
  · have hc : c.isDigit = true := by
      apply renderNat_all_digit n c
      rw [hr]; exact List.mem_cons_self c t
    rw [pyInt, if_neg (isDigit_ne c '-' (by decide) hc), if_neg (isDigit_ne c '+' (by decide) hc),
      ← hr, pyIntCore_renderNat]
    rfl

theorem renderInt_ofNat_add_one (v : Nat) : renderInt ((v : Int) + 1) = renderNat (v + 1) := by
  have h : ((v : Int) + 1) = ((v + 1 : Nat) : Int) := by push_cast; ring
  rw [h]
  rfl

theorem renderNat_not_contains (n : Nat) (d : Char) (hd : d.isDigit = false) :
    (renderNat n).contains d = false := by
  rw [List.contains_eq_any_beq]
  simp only [List.any_eq_false, beq_iff_eq]
  intro c hc e
  subst e
  rw [renderNat_all_digit n d hc] at hd
  exact absurd hd (by decide)

/-! Split and join facts -/

theorem pySplit_cons (sep c : Char) (rest g : List Char) (gs : List (List Char))
    (h : pySplit sep rest = g :: gs) :
    pySplit sep (c :: rest) = if c = sep then [] :: g :: gs else (c :: g) :: gs := by
  rw [pySplit, h]

theorem pySplit_ne_nil (sep : Char) (s : List Char) : pySplit sep s ≠ [] := by
  induction s with
  | nil => simp [pySplit]
  | cons c rest ih =>
    rcases h : pySplit sep rest with _ | ⟨g, gs⟩
    · exact absurd h ih
    · rw [pySplit_cons sep c rest g gs h]
      by_cases hc : c = sep <;> simp [hc]

theorem joinSep_cons (sep : Char) (g : List Char) (gs : List (List Char)) (h : gs ≠ []) :
    joinSep sep (g :: gs) = g ++ sep :: joinSep sep gs := by
  cases gs with
  | nil => exact absurd rfl h
  | cons g2 gs2 => rfl

theorem joinSep_pySplit (sep : Char) (s : List Char) : joinSep sep (pySplit sep s) = s := by
  induction s with
  | nil => rfl
  | cons c rest ih =>
    rcases h : pySplit sep rest with _ | ⟨g, gs⟩
    · exact absurd h (pySplit_ne_nil sep rest)
    · rw [h] at ih
      rw [pySplit_cons sep c rest g gs h]
      by_cases hc : c = sep
      · rw [if_pos hc, joinSep_cons sep [] (g :: gs) (List.cons_ne_nil g gs), ih, hc]
        rfl
      · rw [if_neg hc]
        cases gs with
        | nil => rw [joinSep] at ih ⊢; rw [← ih]
        | cons g2 gs2 =>
          rw [joinSep_cons sep (c :: g) (g2 :: gs2) (List.cons_ne_nil g2 gs2)]
          rw [joinSep_cons sep g (g2 :: gs2) (List.cons_ne_nil g2 gs2)] at ih
          rw [← ih]
          rfl

theorem pySplit_no_sep (sep : Char) (g : List Char) (h : ∀ c ∈ g, c ≠ sep) :
    pySplit sep g = [g] := by
  induction g with
  | nil => rfl
  | cons c rest ih =>
    rw [pySplit_cons sep c rest rest []
        (ih (fun c2 hc2 => h c2 (List.mem_cons_of_mem c hc2))),
      if_neg (h c (List.mem_cons_self c rest))]

theorem pySplit_append_sep (sep : Char) (g t : List Char) (h : ∀ c ∈ g, c ≠ sep) :
    pySplit sep (g ++ sep :: t) = g :: pySplit sep t := by
  induction g with
  | nil =>
    rcases h2 : pySplit sep t with _ | ⟨g2, gs2⟩
    · exact absurd h2 (pySplit_ne_nil sep t)
    · rw [List.nil_append, pySplit_cons sep sep t g2 gs2 h2, if_pos rfl]
  | cons c rest ih =>
    have ih2 := ih (fun c2 hc2 => h c2 (List.mem_cons_of_mem c hc2))
    rcases h2 : pySplit sep t with _ | ⟨g2, gs2⟩
    · exact absurd h2 (pySplit_ne_nil sep t)
    · rw [h2] at ih2
      rw [List.cons_append, pySplit_cons sep c (rest ++ sep :: t) rest (g2 :: gs2) ih2,
        if_neg (h c (List.mem_cons_self c rest))]

theorem pySplit_joinSep (sep : Char) (gs : List (List Char)) (hne : gs ≠ [])
    (h : ∀ g ∈ gs, ∀ c ∈ g, c ≠ sep) : pySplit sep (joinSep sep gs) = gs := by
  induction gs with
  | nil => exact absurd rfl hne
  | cons g gs2 ih =>
    cases gs2 with
    | nil => exact pySplit_no_sep sep g (h g (List.mem_cons_self g []))
    | cons g2 gs3 =>
      rw [joinSep_cons sep g (g2 :: gs3) (List.cons_ne_nil g2 gs3),
        pySplit_append_sep sep g (joinSep sep (g2 :: gs3)) (h g (List.mem_cons_self g _)),
        ih (List.cons_ne_nil g2 gs3) (fun g3 hg3 => h g3 (List.mem_cons_of_mem g hg3))]

theorem joinSep_last_append (sep : Char) (gs : List (List Char)) (x t : List Char) :
    joinSep sep (gs ++ [x]) ++ t = joinSep sep (gs ++ [x ++ t]) := by
  induction gs with
  | nil => rfl
  | cons g gs2 ih =>
    rw [List.cons_append, List.cons_append,
      joinSep_cons sep g (gs2 ++ [x]) (by simp),
      joinSep_cons sep g (gs2 ++ [x ++ t]) (by simp),
      List.append_assoc, List.cons_append, ih]

/-! takeWhile and drop facts -/

theorem takeWhile_all (p : Char → Bool) (xs : List Char) (h : ∀ x ∈ xs, p x = true) :
    xs.takeWhile p = xs := by
  induction xs with
  | nil => rfl
  | cons x rest ih =>
    rw [List.takeWhile_cons, h x (List.mem_cons_self x rest), if_pos rfl,
      ih (fun y hy => h y (List.mem_cons_of_mem x hy))]

theorem takeWhile_append_stop (p : Char → Bool) (xs ys : List Char)
    (hall : ∀ x ∈ xs, p x = true) (hstop : ∀ c t, ys = c :: t → p c = false) :
    (xs ++ ys).takeWhile p = xs := by
  induction xs with
  | nil =>
    cases ys with
    | nil => rfl
    | cons c t =>
      rw [List.nil_append, List.takeWhile_cons, hstop c t rfl]
      rfl
  | cons x rest ih =>
    rw [List.cons_append, List.takeWhile_cons, hall x (List.mem_cons_self x rest), if_pos rfl,
      ih (fun y hy => hall y (List.mem_cons_of_mem x hy))]

/-! List position helpers -/

theorem get_append_cons (A : List (List Char)) (x : List Char) (t : List (List Char)) :
    (A ++ x :: t).get? A.length = some x := by
  induction A with
  | nil => rfl
  | cons a A ih => exact ih

theorem set_append_cons (A : List (List Char)) (x y : List Char) (t : List (List Char)) :
    (A ++ x :: t).set A.length y = A ++ y :: t := by
  induction A with
  | nil => rfl
  | cons a A ih => simp [List.set, ih]

theorem take_append_cons (A : List (List Char)) (x : List Char) (t : List (List Char)) :
    (A ++ x :: t).take (A.length + 1) = A ++ [x] := by
  induction A with
  | nil => rfl
  | cons a A ih => simp [List.take, ih]

theorem zeroFrom_append_cons (A : List (List Char)) (x : List Char) (t : List (List Char)) :
    zeroFrom (A.length + 1) (A ++ x :: t) = A ++ x :: zeroFrom 0 t := by
  induction A with
  | nil => rfl
  | cons a A ih => simp [zeroFrom, ih]

theorem zeroFrom_zero_map (t : List (List Char)) :
    zeroFrom 0 t = t.map (fun _ => ['0']) := by
  induction t with
  | nil => rfl
  | cons a t ih => simp [zeroFrom, ih]

theorem zeroFrom_of_length_le (k : Nat) (l : List (List Char)) (h : l.length ≤ k) :
    zeroFrom k l = l := by
  induction l generalizing k with
  | nil => cases k <;> rfl
  | cons a l ih =>
    cases k with
    | zero => simp at h
    | succ k => simp only [zeroFrom]; rw [ih k (by simpa using h)]

/-! Suffix shapes accepted by the tail of the version pattern -/

theorem word_ne_dot (c : Char) (h : isWordChar c = true) : c ≠ '.' := by
  intro e; subst e; exact absurd h (by decide)

theorem word_ne_comma (c : Char) (h : isWordChar c = true) : c ≠ ',' := by
  intro e; subst e; exact absurd h (by decide)

theorem matchTail_suffixForm (suf : List Char) (h : SuffixForm suf) :
    matchTail suf = (suf, []) := by
  cases h with
  | empty => rfl
  | word w hw hall =>
    simp only [matchTail, takeWhile_all isWordChar w hall, if_neg hw, List.drop_length, if_true]
  | wordDot w d hw hall hd =>
    simp only [matchTail,
      takeWhile_append_stop isWordChar w ['.', d] hall
        (by intro c t he; cases he; decide),
      if_neg hw, List.drop_left, hd, if_true, true_and]

theorem intOfNat_eq_zero_of (v : Nat) (h : v = 0) : Int.ofNat v = 0 := by
  rw [h]
  rfl

theorem intOfNat_ne_zero_of (v : Nat) (h : v ≠ 0) : ¬ Int.ofNat v = 0 :=
  fun he => h (Int.ofNat.inj he)

theorem firstNonzeroFrom_map_render (nums : List Nat) (i : Nat) :
    firstNonzeroFrom (nums.map renderNat) i =
      .ok (match specFirstNonzeroAux nums with
           | some j => Int.ofNat (i + j)
           | none => -1) := by
  induction nums generalizing i with
  | nil => rfl
  | cons v rest ih =>
    simp only [List.map_cons, firstNonzeroFrom, pyInt_renderNat, specFirstNonzeroAux]
    by_cases hv : v = 0
    · rw [if_pos (intOfNat_eq_zero_of v hv), if_pos hv, ih (i + 1)]
      cases hrest : specFirstNonzeroAux rest with
      | none => rfl
      | some j =>
        show Except.ok (Int.ofNat (i + 1 + j)) = Except.ok (Int.ofNat (i + (j + 1)))
        have harith : i + 1 + j = i + (j + 1) := by omega
        rw [harith]
    · rw [if_neg (intOfNat_ne_zero_of v hv), if_neg hv]
      rfl

theorem firstNonzeroFrom_append (A : List (List Char)) (rv : List Char)
    (t : List (List Char)) (i v : Nat) (hA : ∀ a ∈ A, pyInt a = some 0)
    (hv : pyInt rv = some (Int.ofNat v)) (hvne : v ≠ 0) :
    firstNonzeroFrom (A ++ rv :: t) i = .ok (Int.ofNat (i + A.length)) := by
  induction A generalizing i with
  | nil =>
    simp only [List.nil_append, firstNonzeroFrom, hv]
    rw [if_neg (intOfNat_ne_zero_of v hvne)]
    rfl
  | cons a A ih =>
    simp only [List.cons_append, firstNonzeroFrom, hA a (List.mem_cons_self a A),
      eq_self_iff_true, if_true, List.append_eq]
    rw [ih (i + 1) (fun b hb => hA b (List.mem_cons_of_mem a hb))]
    show Except.ok (Int.ofNat (i + 1 + A.length)) = Except.ok (Int.ofNat (i + (a :: A).length))
    have harith : i + 1 + A.length = i + (a :: A).length := by simp; omega
    rw [harith]

theorem incrementVersion_append (A : List (List Char)) (v : Nat) (t : List (List Char)) :
    incrementVersion (A ++ renderNat v :: t) (Int.ofNat A.length) =
      .ok (A ++ renderNat (v + 1) :: zeroFrom 0 t) := by
  have he : pyIdx (A ++ renderNat v :: t).length (Int.ofNat A.length) = A.length := by
    rw [pyIdx, if_neg (show ¬ Int.ofNat A.length < 0 from Int.not_lt.mpr (Int.ofNat_nonneg A.length))]
    rfl
  have hcont : (renderNat v).contains '-' = false := renderNat_not_contains v '-' (by decide)
  have ht : ((Int.ofNat A.length) + 1).toNat = A.length + 1 := rfl
  have hri : renderInt (Int.ofNat v + 1) = renderNat (v + 1) := renderInt_ofNat_add_one v
  simp only [incrementVersion, he, get_append_cons, pyInt_renderNat, hcont,
    Bool.false_eq_true, and_false, if_false, hri, ht, set_append_cons, zeroFrom_append_cons]

/-! Decomposed evaluation of the version regex -/

theorem versionPatternMatch_split (sym body suf : List Char)
    (hsym : ∀ c ∈ sym, isSymChar c = true) (hlen : sym.length ≤ 2)
    (hbody : body ≠ []) (hball : ∀ c ∈ body, isNumChar c = true)
    (hsufhead : ∀ c t, suf = c :: t → isNumChar c = false)
    (htail : (matchTail suf).1 = suf) :
    versionPatternMatch (sym ++ (body ++ suf)) = some (sym, body ++ suf) := by
  obtain ⟨b0, brest, rfl⟩ : ∃ b0 brest, body = b0 :: brest := by
    cases body with
    | nil => exact absurd rfl hbody
    | cons b0 brest => exact ⟨b0, brest, rfl⟩
  have hb0 : isNumChar b0 = true := hball b0 (List.mem_cons_self b0 brest)
  have h1 : (sym ++ b0 :: (brest ++ suf)).takeWhile isSymChar = sym := by
    apply takeWhile_append_stop isSymChar sym (b0 :: (brest ++ suf)) hsym
    intro c t he
    injection he with he1 he2
    subst he1
    exact num_not_sym b0 hb0
  have h2 : sym.take 2 = sym := List.take_of_length_le hlen
  have h3 : (sym ++ b0 :: (brest ++ suf)).drop sym.length = b0 :: (brest ++ suf) :=
    List.drop_left sym _
  have h4 : (b0 :: (brest ++ suf)).takeWhile isNumChar = b0 :: brest := by
    have := takeWhile_append_stop isNumChar (b0 :: brest) suf hball hsufhead
    simpa using this
  have h5 : (b0 :: (brest ++ suf)).drop (b0 :: brest).length = suf := by
    have hd := List.drop_left (b0 :: brest) suf
    rw [List.cons_append] at hd
    exact hd
  simp only [versionPatternMatch, List.cons_append, h1, h2, h3, h4, h5, htail, hb0, if_true]

/-- Pass-through for atoms led by a character outside both regex classes:
the pattern fails to match and the atom is not tilde or caret led, so it
is returned unchanged (line 113). -/
theorem convertVersionConstraint_passthrough (c : Char) (t : List Char)
    (hc : c = '<' ∨ c = '>' ∨ c = '!') :
    convertVersionConstraint (c :: t) = .ok (c :: t) := by
  have hsym : isSymChar c = false := by rcases hc with rfl | rfl | rfl <;> decide
  have hnum : isNumChar c = false := by rcases hc with rfl | rfl | rfl <;> decide
  have hmatch : versionPatternMatch (c :: t) = none := by
    simp only [versionPatternMatch, List.takeWhile_cons, hsym, Bool.false_eq_true, if_false,
      List.take_nil, List.length_nil, List.drop_zero, hnum]
  rw [convertVersionConstraint, hmatch]
  have h1 : ¬ (c :: t).head? = some '~' := by
    rcases hc with rfl | rfl | rfl <;> simp
  have h2 : ¬ (c :: t).head? = some '^' := by
    rcases hc with rfl | rfl | rfl <;> simp
  rw [if_neg (by rintro (h | h); exact h1 h; exact h2 h)]

/-- A single comma-free group goes through `convert_version_entry`
unchanged apart from the per-group conversion. -/
theorem convertVersionEntry_single (cs : List Char) (h1 : cs ≠ "*".toList)
    (h2 : ∀ c ∈ cs, c ≠ ',') :
    convertVersionEntry cs = convertVersionConstraint cs := by
  rw [convertVersionEntry, if_neg h1, pySplit_no_sep ',' cs h2]
  cases hc : convertVersionConstraint cs with
  | error e => simp [convertGroupList, hc]
  | ok r => simp [convertGroupList, hc, joinSep]

/-! Character content of joined version renderings -/

theorem mem_joinSep (sep : Char) (gs : List (List Char)) (c : Char) (h : c ∈ joinSep sep gs) :
    c = sep ∨ ∃ g ∈ gs, c ∈ g := by
  induction gs with
  | nil => simp [joinSep] at h
  | cons g gs2 ih =>
    cases gs2 with
    | nil =>
      refine Or.inr ⟨g, List.mem_cons_self g [], ?_⟩
      simpa [joinSep] using h
    | cons g2 gs3 =>
      rw [joinSep_cons sep g (g2 :: gs3) (List.cons_ne_nil g2 gs3)] at h
      rcases List.mem_append.mp h with h2 | h2
      · exact Or.inr ⟨g, List.mem_cons_self g _, h2⟩
      · rcases List.mem_cons.mp h2 with rfl | h3
        · exact Or.inl rfl
        · rcases ih h3 with h4 | ⟨g3, hg3, hc3⟩
          · exact Or.inl h4
          · exact Or.inr ⟨g3, List.mem_cons_of_mem g hg3, hc3⟩

theorem joinSep_head_ne_nil (sep : Char) (g : List Char) (gs : List (List Char)) (hg : g ≠ []) :
    joinSep sep (g :: gs) ≠ [] := by
  cases gs with
  | nil => simpa [joinSep] using hg
  | cons g2 gs2 =>
    rw [joinSep_cons sep g (g2 :: gs2) (List.cons_ne_nil g2 gs2)]
    intro he
    rcases List.append_eq_nil.mp he with ⟨-, h2⟩
    exact List.cons_ne_nil _ _ h2

theorem joinSep_append_single (sep : Char) (gs : List (List Char)) (h : List Char)
    (hne : gs ≠ []) : joinSep sep (gs ++ [h]) = joinSep sep gs ++ sep :: h := by
  induction gs with
  | nil => exact absurd rfl hne
  | cons g gs2 ih =>
    cases gs2 with
    | nil => rfl
    | cons g2 gs3 =>
      rw [List.cons_append, joinSep_cons sep g ((g2 :: gs3) ++ [h]) (by simp),
        joinSep_cons sep g (g2 :: gs3) (List.cons_ne_nil g2 gs3),
        ih (List.cons_ne_nil g2 gs3)]
      simp

theorem num_ne_comma (c : Char) (h : isNumChar c = true) : c ≠ ',' := by
  simp only [isNumChar, Bool.or_eq_true, beq_iff_eq] at h
  rcases h with (h | h) | h
  · exact isDigit_ne c ',' (by decide) h
  · subst h; decide
  · subst h; decide

theorem joinDot_render_all_num (nums : List Nat) :
    ∀ c ∈ joinSep '.' (nums.map renderNat), isNumChar c = true := by
  intro c hc
  rcases mem_joinSep '.' _ c hc with rfl | ⟨g, hg, hcg⟩
  · decide
  · rcases List.mem_map.mp hg with ⟨n, -, rfl⟩
    exact digit_isNumChar c (renderNat_all_digit n c hcg)

theorem render_ne_dot (n : Nat) : ∀ c ∈ renderNat n, c ≠ '.' :=
  fun c hc => isDigit_ne c '.' (by decide) (renderNat_all_digit n c hc)

theorem suffixForm_ne_comma (suf : List Char) (h : SuffixForm suf) :
    ∀ c ∈ suf, c ≠ ',' := by
  cases h with
  | empty => intro c hc; simp at hc
  | word w hw hall =>
    intro c hc
    rcases List.mem_cons.mp hc with rfl | h2
    · decide
    · exact word_ne_comma c (hall c h2)
  | wordDot w d hw hall hd =>
    intro c hc
    rcases List.mem_cons.mp hc with rfl | h2
    · decide
    · rcases List.mem_append.mp h2 with h3 | h3
      · exact word_ne_comma c (hall c h3)
      · rcases List.mem_cons.mp h3 with rfl | h4
        · decide
        · rcases List.mem_singleton.mp h4 with rfl
          exact isDigit_ne c ',' (by decide) hd

theorem suffixForm_head_not_num (suf : List Char) (h : SuffixForm suf) :
    ∀ c t, suf = c :: t → isNumChar c = false := by
  cases h with
  | empty => intro c t he; cases he
  | word w hw hall => intro c t he; injection he with he1 he2; subst he1; decide
  | wordDot w d hw hall hd => intro c t he; injection he with he1 he2; subst he1; decide

/-! Core evaluation of a caret constraint -/

theorem caret_core (pre : List Nat) (v : Nat) (T : List (List Char)) (rest : List Char)
    (hpre : ∀ x ∈ pre, x = 0) (hv : v ≠ 0)
    (hm : versionPatternMatch ('^' :: rest) = some (['^'], rest))
    (hcomps : pySplit '.' rest = (pre.map renderNat) ++ renderNat v :: T) :
    convertVersionConstraint ('^' :: rest) =
      .ok (">=".toList ++ rest ++ ",<".toList ++ joinSep '.' ((pre ++ [v + 1]).map renderNat)) := by
  have hA : ∀ a ∈ pre.map renderNat, pyInt a = some 0 := by
    intro a ha
    rcases List.mem_map.mp ha with ⟨x, hx, rfl⟩
    rw [hpre x hx]
    exact pyInt_renderNat 0
  have hscan := firstNonzeroFrom_append (pre.map renderNat) (renderNat v) T 0 v hA
    (pyInt_renderNat v) hv
  rw [Nat.zero_add] at hscan
  have hinc := incrementVersion_append (pre.map renderNat) v T
  have htk : ((Int.ofNat (pre.map renderNat).length) + 1).toNat =
      (pre.map renderNat).length + 1 := rfl
  have hjoin : (pre.map renderNat) ++ [renderNat (v + 1)] = (pre ++ [v + 1]).map renderNat := by
    simp
  simp only [convertVersionConstraint, hm, hcomps, hscan, hinc, htk,
    if_neg (by decide : ¬(['^'] = ([] : List Char) ∨ ['^'] = ['='])),
    if_pos (rfl : ['^'] = ['^']), if_true,
    take_append_cons (pre.map renderNat) (renderNat (v + 1)) (zeroFrom 0 T), hjoin]

theorem map_render_ne_nil (nums : List Nat) (h : nums ≠ []) : nums.map renderNat ≠ [] := by
  simpa using h

theorem joinDot_render_ne_nil (nums : List Nat) (h : nums ≠ []) :
    joinSep '.' (nums.map renderNat) ≠ [] := by
  rcases hmap : nums.map renderNat with _ | ⟨g, gs⟩
  · exact absurd hmap (map_render_ne_nil nums h)
  · have hgmem : g ∈ nums.map renderNat := by rw [hmap]; exact List.mem_cons_self g gs
    rcases List.mem_map.mp hgmem with ⟨n, -, rfl⟩
    exact joinSep_head_ne_nil '.' (renderNat n) gs (renderNat_ne_nil n)

theorem map_render_dot_free (nums : List Nat) :
    ∀ g ∈ nums.map renderNat, ∀ c ∈ g, c ≠ '.' := by
  intro g hg
  rcases List.mem_map.mp hg with ⟨n, -, rfl⟩
  exact render_ne_dot n

/-- Full evaluation of a caret constraint whose components are all-zero up
to the first non-zero `v`, with an optional pre-release suffix that glues
onto the last rendered component. -/
theorem caret_constraint (pre : List Nat) (v : Nat) (post : List Nat) (suf : List Char)
    (hpre : ∀ x ∈ pre, x = 0) (hv : v ≠ 0) (hsuf : SuffixForm suf)
    (hpost : suf ≠ [] → post ≠ []) :
    convertVersionConstraint
        ('^' :: (joinSep '.' ((pre ++ v :: post).map renderNat) ++ suf)) =
      .ok (">=".toList ++ (joinSep '.' ((pre ++ v :: post).map renderNat) ++ suf) ++
        ",<".toList ++ joinSep '.' ((pre ++ [v + 1]).map renderNat)) := by
  have hnumsne : (pre ++ v :: post) ≠ [] := by simp
  have hball := joinDot_render_all_num (pre ++ v :: post)
  have hbody := joinDot_render_ne_nil (pre ++ v :: post) hnumsne
  have hm : versionPatternMatch
      ('^' :: (joinSep '.' ((pre ++ v :: post).map renderNat) ++ suf)) =
      some (['^'], joinSep '.' ((pre ++ v :: post).map renderNat) ++ suf) := by
    have := versionPatternMatch_split ['^'] (joinSep '.' ((pre ++ v :: post).map renderNat)) suf
      (by decide) (by decide) hbody hball (suffixForm_head_not_num suf hsuf)
      (by rw [matchTail_suffixForm suf hsuf])
    simpa using this
  cases hsuf with
  | empty =>
    have hcomps : pySplit '.' (joinSep '.' ((pre ++ v :: post).map renderNat) ++ []) =
        (pre.map renderNat) ++ renderNat v :: (post.map renderNat) := by
      rw [List.append_nil,
        pySplit_joinSep '.' _ (map_render_ne_nil _ hnumsne) (map_render_dot_free _)]
      simp
    exact caret_core pre v (post.map renderNat) _ hpre hv hm hcomps
  | word w hw hall =>
    have hpostne : post ≠ [] := hpost (List.cons_ne_nil '-' w)
    obtain ⟨mid, lastN, rfl⟩ : ∃ mid lastN, post = mid ++ [lastN] := by
      rcases List.eq_nil_or_concat post with h | ⟨L, b, hb⟩
      · exact absurd h hpostne
      · exact ⟨L, b, by simpa [List.concat_eq_append] using hb⟩
    have hdotfree : ∀ g ∈ ((pre ++ v :: mid).map renderNat) ++ [renderNat lastN ++ '-' :: w],
        ∀ c ∈ g, c ≠ '.' := by
      intro g hg
      rcases List.mem_append.mp hg with h2 | h2
      · exact map_render_dot_free (pre ++ v :: mid) g h2
      · rcases List.mem_singleton.mp h2 with rfl
        intro c hc
        rcases List.mem_append.mp hc with h3 | h3
        · exact render_ne_dot lastN c h3
        · rcases List.mem_cons.mp h3 with rfl | h4
          · decide
          · exact word_ne_dot c (hall c h4)
    have hcomps : pySplit '.'
        (joinSep '.' ((pre ++ v :: (mid ++ [lastN])).map renderNat) ++ ('-' :: w)) =
        pre.map renderNat ++
          renderNat v :: (mid.map renderNat ++ [renderNat lastN ++ '-' :: w]) := by
      rw [show (pre ++ v :: (mid ++ [lastN])).map renderNat =
          ((pre ++ v :: mid).map renderNat) ++ [renderNat lastN] from by simp,
        joinSep_last_append '.' ((pre ++ v :: mid).map renderNat) (renderNat lastN) ('-' :: w),
        pySplit_joinSep '.' _ (by simp) hdotfree]
      simp
    exact caret_core pre v (mid.map renderNat ++ [renderNat lastN ++ '-' :: w]) _
      hpre hv hm hcomps
  | wordDot w d hw hall hd =>
    have hpostne : post ≠ [] := hpost (List.cons_ne_nil '-' (w ++ ['.', d]))
    obtain ⟨mid, lastN, rfl⟩ : ∃ mid lastN, post = mid ++ [lastN] := by
      rcases List.eq_nil_or_concat post with h | ⟨L, b, hb⟩
      · exact absurd h hpostne
      · exact ⟨L, b, by simpa [List.concat_eq_append] using hb⟩
    have hdotfree : ∀ g ∈ (((pre ++ v :: mid).map renderNat) ++
        [renderNat lastN ++ '-' :: w]) ++ [[d]], ∀ c ∈ g, c ≠ '.' := by
      intro g hg
      rcases List.mem_append.mp hg with h2 | h2
      · rcases List.mem_append.mp h2 with h5 | h5
        · exact map_render_dot_free (pre ++ v :: mid) g h5
        · rcases List.mem_singleton.mp h5 with rfl
          intro c hc
          rcases List.mem_append.mp hc with h3 | h3
          · exact render_ne_dot lastN c h3
          · rcases List.mem_cons.mp h3 with rfl | h4
            · decide
            · exact word_ne_dot c (hall c h4)
      · rcases List.mem_singleton.mp h2 with rfl
        intro c hc
        rcases List.mem_singleton.mp hc with rfl
        exact isDigit_ne c '.' (by decide) hd
    have hre : joinSep '.' ((pre ++ v :: (mid ++ [lastN])).map renderNat) ++
        ('-' :: (w ++ ['.', d])) =
        joinSep '.' ((((pre ++ v :: mid).map renderNat) ++
          [renderNat lastN ++ '-' :: w]) ++ [[d]]) := by
      rw [joinSep_append_single '.' _ [d] (by simp),
        ← joinSep_last_append '.' ((pre ++ v :: mid).map renderNat) (renderNat lastN)
          ('-' :: w),
        show (pre ++ v :: (mid ++ [lastN])).map renderNat =
          ((pre ++ v :: mid).map renderNat) ++ [renderNat lastN] from by simp]
      simp
    have hcomps : pySplit '.'
        (joinSep '.' ((pre ++ v :: (mid ++ [lastN])).map renderNat) ++
          ('-' :: (w ++ ['.', d]))) =
        pre.map renderNat ++
          renderNat v :: (mid.map renderNat ++ [renderNat lastN ++ '-' :: w, [d]]) := by
      rw [hre, pySplit_joinSep '.' _ (by simp) hdotfree]
      simp
    exact caret_core pre v (mid.map renderNat ++ [renderNat lastN ++ '-' :: w, [d]]) _
      hpre hv hm hcomps

theorem set_zero_zeroFrom (X : List (List Char)) (hX : X ≠ []) :
    (zeroFrom 0 X).set 0 ['0'] = zeroFrom 0 X := by
  cases X with
  | nil => exact absurd rfl hX
  | cons a t => rfl

theorem map_zero_render (rest : List Nat) :
    (rest.map renderNat).map (fun _ => (['0'] : List Char)) =
      (rest.map (fun _ => 0)).map renderNat := by
  rw [List.map_map, List.map_map]
  rfl

/-- Full evaluation of a tilde constraint over rendered numeric
components. -/
theorem tilde_constraint (nums : List Nat) (hne : nums ≠ []) :
    convertVersionConstraint ('~' :: joinSep '.' (nums.map renderNat)) =
      .ok (">=".toList ++ joinSep '.' (nums.map renderNat) ++ ",<".toList ++
        joinSep '.' ((specTildeUpper nums).map renderNat)) := by
  have hball := joinDot_render_all_num nums
  have hbody := joinDot_render_ne_nil nums hne
  have hm : versionPatternMatch ('~' :: joinSep '.' (nums.map renderNat)) =
      some (['~'], joinSep '.' (nums.map renderNat)) := by
    have := versionPatternMatch_split ['~'] (joinSep '.' (nums.map renderNat)) []
      (by decide) (by decide) hbody hball (by intro c t he; cases he) rfl
    simpa using this
  have hcomps : pySplit '.' (joinSep '.' (nums.map renderNat)) = nums.map renderNat :=
    pySplit_joinSep '.' _ (map_render_ne_nil _ hne) (map_render_dot_free _)
  have hscan := firstNonzeroFrom_map_render nums 0
  simp only [convertVersionConstraint, hm, hcomps, hscan,
    if_neg (by decide : ¬(['~'] = ([] : List Char) ∨ ['~'] = ['='])),
    if_neg (by decide : ¬(['~'] = ['^'])), if_pos (rfl : ['~'] = ['~']), if_true]
  by_cases hcond : 3 ≤ nums.length ∧ ((specFirstNonzeroAux nums).getD 0) < 2
  · have hcond2 : 3 ≤ (nums.map renderNat).length ∧
        (match specFirstNonzeroAux nums with
         | some j => Int.ofNat (0 + j)
         | none => -1) < 2 := by
      refine ⟨by simpa using hcond.1, ?_⟩
      cases hrest : specFirstNonzeroAux nums with
      | none => decide
      | some j =>
        have := hcond.2
        rw [hrest] at this
        show ((0 + j : Nat) : Int) < 2
        have hj : j < 2 := by simpa using this
        omega
    rw [if_pos hcond2]
    obtain ⟨n0, n1, rest, rfl⟩ : ∃ n0 n1 rest, nums = n0 :: n1 :: rest := by
      rcases nums with _ | ⟨n0, _ | ⟨n1, rest⟩⟩
      · exact absurd rfl hne
      · exact absurd hcond.1 (by simp)
      · exact ⟨n0, n1, rest, rfl⟩
    have hrestne : rest ≠ [] := by
      have := hcond.1
      rcases rest with _ | _
      · simp at this
      · exact List.cons_ne_nil _ _
    have hinc : incrementVersion
        (renderNat n0 :: renderNat n1 :: rest.map renderNat) 1 =
        .ok (renderNat n0 :: renderNat (n1 + 1) :: zeroFrom 0 (rest.map renderNat)) := by
      have := incrementVersion_append [renderNat n0] n1 (rest.map renderNat)
      simpa using this
    simp only [List.map_cons, hinc]
    have hset : (renderNat n0 :: renderNat (n1 + 1) ::
        zeroFrom 0 (rest.map renderNat)).set 2 ['0'] =
        renderNat n0 :: renderNat (n1 + 1) :: zeroFrom 0 (rest.map renderNat) := by
      show renderNat n0 :: renderNat (n1 + 1) ::
        (zeroFrom 0 (rest.map renderNat)).set 0 ['0'] = _
      rw [set_zero_zeroFrom _ (map_render_ne_nil _ hrestne)]
    rw [hset]
    have hup : specTildeUpper (n0 :: n1 :: rest) = n0 :: (n1 + 1) :: rest.map (fun _ => 0) := by
      rw [specTildeUpper.eq_def, if_pos hcond]
    rw [hup]
    simp only [List.map_cons, zeroFrom_zero_map, map_zero_render]
  · have hcond2 : ¬ (3 ≤ (nums.map renderNat).length ∧
        (match specFirstNonzeroAux nums with
         | some j => Int.ofNat (0 + j)
         | none => -1) < 2) := by
      intro hc
      apply hcond
      refine ⟨by simpa using hc.1, ?_⟩
      cases hrest : specFirstNonzeroAux nums with
      | none => simp
      | some j =>
        have := hc.2
        rw [hrest] at this
        have hj : ((0 + j : Nat) : Int) < 2 := this
        simp only [Option.getD_some]
        omega
    rw [if_neg hcond2]
    obtain ⟨init, lastN, rfl⟩ : ∃ init lastN, nums = init ++ [lastN] := by
      rcases List.eq_nil_or_concat nums with h | ⟨L, b, hb⟩
      · exact absurd h hne
      · exact ⟨L, b, by simpa [List.concat_eq_append] using hb⟩
    have hlen : ((init ++ [lastN]).map renderNat).length - 1 = (init.map renderNat).length := by
      simp
    have hinc : incrementVersion ((init ++ [lastN]).map renderNat)
        (Int.ofNat (((init ++ [lastN]).map renderNat).length - 1)) =
        .ok ((init.map renderNat) ++ [renderNat (lastN + 1)]) := by
      rw [hlen,
        show (init ++ [lastN]).map renderNat = (init.map renderNat) ++ renderNat lastN :: []
          from by simp]
      have := incrementVersion_append (init.map renderNat) lastN []
      simpa using this
    rw [hinc]
    have hup : specTildeUpper (init ++ [lastN]) = init ++ [lastN + 1] := by
      rw [specTildeUpper.eq_def, if_neg hcond]
      simp
    rw [hup]
    simp

/-- Full evaluation of a trailing-wildcard version with a non-zero
component: the no-symbol branch rewrites it to an equality constraint. -/
theorem wildcard_constraint (pre : List Nat) (v : Nat) (post : List Nat)
    (hpre : ∀ x ∈ pre, x = 0) (hv : v ≠ 0) :
    convertVersionConstraint (joinSep '.' ((pre ++ v :: post).map renderNat) ++ '.' :: ['*']) =
      .ok ('=' :: '=' :: (joinSep '.' ((pre ++ v :: post).map renderNat) ++ '.' :: ['*'])) := by
  have hnumsne : (pre ++ v :: post) ≠ [] := by simp
  have hgs : joinSep '.' ((pre ++ v :: post).map renderNat) ++ '.' :: ['*'] =
      joinSep '.' (((pre ++ v :: post).map renderNat) ++ [['*']]) :=
    (joinSep_append_single '.' _ ['*'] (map_render_ne_nil _ hnumsne)).symm
  have hball : ∀ c ∈ joinSep '.' (((pre ++ v :: post).map renderNat) ++ [['*']]),
      isNumChar c = true := by
    intro c hc
    rcases mem_joinSep '.' _ c hc with rfl | ⟨g, hg, hcg⟩
    · decide
    · rcases List.mem_append.mp hg with h2 | h2
      · rcases List.mem_map.mp h2 with ⟨n, -, rfl⟩
        exact digit_isNumChar c (renderNat_all_digit n c hcg)
      · rcases List.mem_singleton.mp h2 with rfl
        rcases List.mem_singleton.mp hcg with rfl
        decide
  have hbody : joinSep '.' (((pre ++ v :: post).map renderNat) ++ [['*']]) ≠ [] := by
    rcases hmap : ((pre ++ v :: post).map renderNat) ++ [['*']] with _ | ⟨g, gs⟩
    · simp at hmap
    · have hgmem : g ∈ ((pre ++ v :: post).map renderNat) ++ [['*']] := by
        rw [hmap]; exact List.mem_cons_self g gs
      have hgne : g ≠ [] := by
        rcases List.mem_append.mp hgmem with h2 | h2
        · rcases List.mem_map.mp h2 with ⟨n, -, rfl⟩
          exact renderNat_ne_nil n
        · rcases List.mem_singleton.mp h2 with rfl
          exact List.cons_ne_nil _ _
      exact joinSep_head_ne_nil '.' g gs hgne
  have hm : versionPatternMatch (joinSep '.' (((pre ++ v :: post).map renderNat) ++ [['*']])) =
      some ([], joinSep '.' (((pre ++ v :: post).map renderNat) ++ [['*']])) := by
    have := versionPatternMatch_split [] _ []
      (by intro c hc; simp at hc) (by decide) hbody hball (by intro c t he; cases he) rfl
    simpa using this
  have hdotfree : ∀ g ∈ ((pre ++ v :: post).map renderNat) ++ [['*']], ∀ c ∈ g, c ≠ '.' := by
    intro g hg
    rcases List.mem_append.mp hg with h2 | h2
    · exact map_render_dot_free _ g h2
    · rcases List.mem_singleton.mp h2 with rfl
      intro c hc
      rcases List.mem_singleton.mp hc with rfl
      decide
  have hcomps : pySplit '.' (joinSep '.' (((pre ++ v :: post).map renderNat) ++ [['*']])) =
      (pre.map renderNat) ++ renderNat v :: ((post.map renderNat) ++ [['*']]) := by
    rw [pySplit_joinSep '.' _ (by simp) hdotfree]
    simp
  have hA : ∀ a ∈ pre.map renderNat, pyInt a = some 0 := by
    intro a ha
    rcases List.mem_map.mp ha with ⟨x, hx, rfl⟩
    rw [hpre x hx]
    exact pyInt_renderNat 0
  have hscan := firstNonzeroFrom_append (pre.map renderNat) (renderNat v)
    ((post.map renderNat) ++ [['*']]) 0 v hA (pyInt_renderNat v) hv
  rw [hgs]
  simp only [convertVersionConstraint, hm, hcomps, hscan, eq_self_iff_true, true_or, if_true]

/-- A group list on which every group converts to itself converts to
itself as a whole. -/
theorem convertGroupList_all_ok (l : List (List Char))
    (h : ∀ a ∈ l, convertVersionConstraint a = .ok a) : convertGroupList l = .ok l := by
  induction l with
  | nil => rfl
  | cons g gs ih =>
    rw [convertGroupList, h g (List.mem_cons_self g gs),
      ih (fun a ha => h a (List.mem_cons_of_mem g ha))]

/-- Entries named `python` contribute nothing to `convert_deps_list`:
converting a list equals converting the list with those entries
removed. -/
theorem convertDepsList_filter_python (resolve : String → String)
    (l : List (String × TomlVal)) : ∀ acc,
    convertDepsList resolve acc l =
      convertDepsList resolve acc (l.filter (fun kv => kv.1 ≠ "python")) := by
  induction l with
  | nil => intro acc; rfl
  | cons kv rest ih =>
    intro acc
    obtain ⟨name, v⟩ := kv
    by_cases hname : name = "python"
    · subst hname
      have hfil : List.filter (fun kv => kv.1 ≠ "python") (("python", v) :: rest) =
          List.filter (fun kv => kv.1 ≠ "python") rest := by simp
      have hstep : convertDepsList resolve acc (("python", v) :: rest) =
          convertDepsList resolve acc rest := by
        rw [convertDepsList.eq_def]
        simp
      rw [hfil, hstep]
      exact ih acc
    · have hfil : List.filter (fun kv => kv.1 ≠ "python") ((name, v) :: rest) =
          (name, v) :: List.filter (fun kv => kv.1 ≠ "python") rest := by simp [hname]
      rw [hfil]
      cases v with
      | vtbl t =>
        simp only [convertDepsList, if_neg hname]
        cases hpt : processTableDep resolve name t acc with
        | error e => rfl
        | ok acc2 => exact ih acc2
      | vs s =>
        simp only [convertDepsList, if_neg hname]
        by_cases ht : tomlTruthy (.vs s) = true
        · rw [if_pos ht, if_pos ht]
          cases hcv : convertVersionEntryFull acc.sources (.vs s) with
          | error e => rfl
          | ok p => exact ih _
        · rw [if_neg ht, if_neg ht]
          exact ih acc
      | vb b =>
        simp only [convertDepsList, if_neg hname]
        by_cases ht : tomlTruthy (.vb b) = true
        · rw [if_pos ht, if_pos ht]
          cases hcv : convertVersionEntryFull acc.sources (.vb b) with
          | error e => rfl
          | ok p => exact ih _
        · rw [if_neg ht, if_neg ht]
          exact ih acc
      | varrS ss =>
        simp only [convertDepsList, if_neg hname]
        by_cases ht : tomlTruthy (.varrS ss) = true
        · rw [if_pos ht, if_pos ht]
          cases hcv : convertVersionEntryFull acc.sources (.varrS ss) with
          | error e => rfl
          | ok p => exact ih _
        · rw [if_neg ht, if_neg ht]
          exact ih acc
      | varrT ts =>
        simp only [convertDepsList, if_neg hname]
        by_cases ht : tomlTruthy (.varrT ts) = true
        · rw [if_pos ht, if_pos ht]
          cases hcv : convertVersionEntryFull acc.sources (.varrT ts) with
          | error e => rfl
          | ok p => exact ih _
        · rw [if_neg ht, if_neg ht]
          exact ih acc

/-- A successful document conversion pins `requires-python` to the
translation of the `python` entry of the main dependency table. -/
theorem convertToPep508Core_requiresPython (resolve : String → String) (pd : PoetryIn)
    (out : ProjectOut) (h : convertToPep508Core resolve pd = .ok out) :
    ∃ v s0, lookupA "python" pd.dependencies = some v ∧
      convertVersionEntryFull [] v = .ok (out.requiresPython, s0) := by
  rw [convertToPep508Core] at h
  cases hlook : lookupA "python" pd.dependencies with
  | none =>
    simp only [hlook] at h
    exact Except.noConfusion h
  | some v =>
    simp only [hlook] at h
    cases hcv : convertVersionEntryFull [] v with
    | error e =>
      simp only [hcv] at h
      exact Except.noConfusion h
    | ok p =>
      obtain ⟨pv, s0⟩ := p
      simp only [hcv] at h
      refine ⟨v, s0, rfl, ?_⟩
      cases hmain : convertDepsList resolve ⟨[], [], s0⟩ pd.dependencies with
      | error e =>
        simp only [hmain] at h
        exact Except.noConfusion h
      | ok accMain =>
        simp only [hmain] at h
        cases hdev : convertDepsList resolve ⟨[], [], accMain.sources⟩ pd.devDependencies with
        | error e =>
          simp only [hdev] at h
          exact Except.noConfusion h
        | ok accDev =>
          simp only [hdev] at h
          cases hgr : convertGroups resolve accDev.sources pd.groups with
          | error e =>
            simp only [hgr] at h
            exact Except.noConfusion h
          | ok p2 =>
            obtain ⟨groupsOut, s2⟩ := p2
            simp only [hgr] at h
            injection h with h2
            rw [hcv, ← h2]

theorem cons_ne_star (c : Char) (t : List Char) (hc : c ≠ '*') : (c :: t) ≠ "*".toList := by
  intro he
  have he2 : c :: t = ['*'] := he
  injection he2 with h1 h2
  exact hc h1

/-! Claim theorems -/

/-- C1 (amended): for every caret constraint over dot-separated
non-negative integers whose first non-zero component is `v` (all earlier
components zero), optionally carrying a pre-release suffix on the last
component provided some component strictly before the last is non-zero,
the translator returns `>=v,<u` where `u` increments the first non-zero
component by one, zeroes all later components and truncates to the
components up to the first non-zero index inclusive.  (The original claim
also covered suffixed versions whose only non-zero component is the last;
on those the code raises a `ValueError` from `int()`, see the
counterexample.) -/
theorem c1_caret_conversion (pre : List Nat) (v : Nat) (post : List Nat) (suf : List Char)
    (hpre : ∀ x ∈ pre, x = 0) (hv : v ≠ 0) (hsuf : SuffixForm suf)
    (hpost : suf ≠ [] → post ≠ []) :
    convertVersionEntry ('^' :: (joinSep '.' ((pre ++ v :: post).map renderNat) ++ suf)) =
      .ok (">=".toList ++ (joinSep '.' ((pre ++ v :: post).map renderNat) ++ suf) ++
        ",<".toList ++ joinSep '.' ((pre ++ [v + 1]).map renderNat)) := by
  have hstar : ('^' :: (joinSep '.' ((pre ++ v :: post).map renderNat) ++ suf)) ≠
      "*".toList := cons_ne_star '^' _ (by decide)
  have hcomma : ∀ c ∈ '^' :: (joinSep '.' ((pre ++ v :: post).map renderNat) ++ suf),
      c ≠ ',' := by
    intro c hc
    rcases List.mem_cons.mp hc with rfl | h2
    · decide
    · rcases List.mem_append.mp h2 with h3 | h3
      · exact num_ne_comma c (joinDot_render_all_num _ c h3)
      · exact suffixForm_ne_comma suf hsuf c h3
  rw [convertVersionEntry_single _ hstar hcomma]
  exact caret_constraint pre v post suf hpre hv hsuf hpost

/-- Witness for C1: concrete instances of the caret theorem, matching the
worked examples of the claim. -/
theorem c1_caret_conversion_witness :
    convertVersionEntry "^0.1.0".toList = .ok ">=0.1.0,<0.2".toList ∧
    convertVersionEntry "^2.1.3".toList = .ok ">=2.1.3,<3".toList := by
  constructor
  · exact c1_caret_conversion [0] 1 [0] [] (by decide) (by decide) SuffixForm.empty
      (fun hc => absurd rfl hc)
  · exact c1_caret_conversion [] 2 [1, 3] [] (by decide) (by decide) SuffixForm.empty
      (fun hc => absurd rfl hc)

/-- Counterexample to C1 as stated: `^0.0.1-alpha` lies in the claimed
domain (its patch component is non-zero and carries the suffix) but the
code raises the `int()` ValueError instead of returning a range. -/
theorem c1_caret_conversion_counterexample :
    translate "^0.0.1-alpha" = .error (intLiteralErr "1-alpha".toList) ∧
    translate "^0.0.1-alpha" ≠ .ok ">=0.0.1-alpha,<0.0.2" := by
  constructor
  · decide
  · decide

/-- C2 (amended): for every tilde constraint over dot-separated
non-negative integers, when at least three components are given and the
first non-zero component is at index 0 or 1 or all components are zero,
the upper bound increments the minor component and zeroes every later
component; otherwise it increments the last given component; the upper
bound keeps the number of components of the input. -/
theorem c2_tilde_conversion (nums : List Nat) (hne : nums ≠ []) :
    convertVersionEntry ('~' :: joinSep '.' (nums.map renderNat)) =
      .ok (">=".toList ++ joinSep '.' (nums.map renderNat) ++ ",<".toList ++
        joinSep '.' ((specTildeUpper nums).map renderNat)) := by
  have hstar : ('~' :: joinSep '.' (nums.map renderNat)) ≠ "*".toList :=
    cons_ne_star '~' _ (by decide)
  have hcomma : ∀ c ∈ '~' :: joinSep '.' (nums.map renderNat), c ≠ ',' := by
    intro c hc
    rcases List.mem_cons.mp hc with rfl | h2
    · decide
    · exact num_ne_comma c (joinDot_render_all_num _ c h2)
  rw [convertVersionEntry_single _ hstar hcomma]
  exact tilde_constraint nums hne

/-- Witness for C2: concrete instances matching the worked examples of
the claim. -/
theorem c2_tilde_conversion_witness :
    convertVersionEntry "~1.2.3".toList = .ok ">=1.2.3,<1.3.0".toList ∧
    convertVersionEntry "~1.2".toList = .ok ">=1.2,<1.3".toList := by
  constructor
  · exact c2_tilde_conversion [1, 2, 3] (by decide)
  · exact c2_tilde_conversion [1, 2] (by decide)

/-- Counterexample to C2 as stated: `~0.0.0` has no non-zero component,
so the claim prescribes incrementing the last given component
(`<0.0.1`), but the code takes the minor-increment branch because the
missing-index sentinel `-1` is below 2, yielding `<0.1.0`. -/
theorem c2_tilde_conversion_counterexample :
    translate "~0.0.0" = .ok ">=0.0.0,<0.1.0" ∧
    translate "~0.0.0" ≠ .ok ">=0.0.0,<0.0.1" := by
  constructor
  · decide
  · decide

/-- C3: pre-release suffixes are kept in the lower bound and ignored in
the upper bound when the increment point lies above the patch position:
`^1.0.0-alpha` maps to `>=1.0.0-alpha,<2` and `~1.0.0-beta` maps to
`>=1.0.0-beta,<1.1.0`. -/
theorem c3_prerelease_suffix :
    translate "^1.0.0-alpha" = .ok ">=1.0.0-alpha,<2" ∧
    translate "~1.0.0-beta" = .ok ">=1.0.0-beta,<1.1.0" := by
  constructor
  · decide
  · decide

/-- C4: evaluation of the code at the failing input.  For an all-zero
caret version the claim (and the spec) prescribe incrementing the last
given component (`^0.0` to `>=0.0,<0.1`), but the code increments the
last component through the Python `-1` index, then the zeroing loop
`range(0, len)` overwrites it and the `[:0]` truncation drops every
component, emitting the malformed constraint `>=0.0,<`. -/
theorem c4_all_zero_caret_behavior :
    translate "^0.0" = .ok ">=0.0,<" ∧ translate "^0" = .ok ">=0,<" := by
  constructor
  · decide
  · decide

/-- C5 (amended): the bare wildcard translates to the empty constraint,
and every trailing-wildcard version whose numeric components are not all
zero translates to `==` followed by the same literal.  (For an all-zero
prefix such as `0.*` the first-non-zero scan reaches the `*` component
and the code raises the `int()` ValueError, see the counterexample.) -/
theorem c5_wildcard_conversion :
    translate "*" = .ok "" ∧
    (∀ (pre : List Nat) (v : Nat) (post : List Nat), (∀ x ∈ pre, x = 0) → v ≠ 0 →
      convertVersionEntry (joinSep '.' ((pre ++ v :: post).map renderNat) ++ '.' :: ['*']) =
        .ok ('=' :: '=' :: (joinSep '.' ((pre ++ v :: post).map renderNat) ++ '.' :: ['*']))) := by
  constructor
  · decide
  · intro pre v post hpre hv
    have hstar : (joinSep '.' ((pre ++ v :: post).map renderNat) ++ '.' :: ['*']) ≠
        "*".toList := by
      intro he
      have hlen := congrArg List.length he
      simp at hlen
    have hcomma : ∀ c ∈ joinSep '.' ((pre ++ v :: post).map renderNat) ++ '.' :: ['*'],
        c ≠ ',' := by
      intro c hc
      rcases List.mem_append.mp hc with h2 | h2
      · exact num_ne_comma c (joinDot_render_all_num _ c h2)
      · rcases List.mem_cons.mp h2 with rfl | h3
        · decide
        · rcases List.mem_singleton.mp h3 with rfl
          decide
    rw [convertVersionEntry_single _ hstar hcomma]
    exact wildcard_constraint pre v post hpre hv

/-- Witness for C5: a concrete instance of the wildcard theorem. -/
theorem c5_wildcard_conversion_witness :
    convertVersionEntry "1.2.*".toList = .ok "==1.2.*".toList := by
  exact c5_wildcard_conversion.2 [] 1 [2] (by decide) (by decide)

/-- Counterexample to C5 as stated: the wildcard form `0.*` (N = 0) does
not translate to `==0.*`; the scan for the first non-zero component
applies `int` to the `*` component and raises. -/
theorem c5_wildcard_conversion_counterexample :
    translate "0.*" = .error (intLiteralErr "*".toList) ∧
    translate "0.*" ≠ .ok "==0.*" := by
  constructor
  · decide
  · decide

/-- C6 (amended): the translation of a non-wildcard expression is the
comma-join, in order, of the translations of its comma-separated atoms,
and atoms whose first character is `<`, `>` or `!` (covering `<`, `<=`,
`>`, `>=`, `!=`) are emitted unchanged; the worked example
`^1.0.0,!=1.0.1` maps to `>=1.0.0,<2,!=1.0.1`.  (Atoms led by `==` are
not always unchanged, see the counterexample.) -/
theorem c6_comma_composition :
    (∀ s : List Char, s ≠ "*".toList →
      convertVersionEntry s =
        (match convertGroupList (pySplit ',' s) with
         | .error e => .error e
         | .ok parts => .ok (joinSep ',' parts))) ∧
    (∀ (c : Char) (t : List Char), c = '<' ∨ c = '>' ∨ c = '!' →
      convertVersionConstraint (c :: t) = .ok (c :: t)) ∧
    translate "^1.0.0,!=1.0.1" = .ok ">=1.0.0,<2,!=1.0.1" := by
  refine ⟨?_, ?_, by decide⟩
  · intro s hs
    rw [convertVersionEntry, if_neg hs]
  · exact convertVersionConstraint_passthrough

/-- Witness for C6: an atom led by an exclamation mark passes through
unchanged. -/
theorem c6_comma_composition_witness :
    convertVersionConstraint "!=1.0.1".toList = .ok "!=1.0.1".toList := by
  exact c6_comma_composition.2.1 '!' "=1.0.1".toList (Or.inr (Or.inr rfl))

/-- Counterexample to C6 as stated: the atom `==1.2.3rc1` is led by the
standard operator `==` but is not emitted unchanged; the regex keeps only
the part matched by the numeric pattern. -/
theorem c6_comma_composition_counterexample :
    translate "==1.2.3rc1" = .ok "==1.2.3" ∧
    translate "==1.2.3rc1" ≠ .ok "==1.2.3rc1" := by
  constructor
  · decide
  · decide

/-- C7 (amended): an expression each of whose comma-separated atoms
begins with `<`, `>` or `!` is returned unchanged, hence the translator
is idempotent on such expressions.  (Expressions with `==`-led atoms are
not always returned unchanged, see the counterexample.) -/
theorem c7_pep440_passthrough (s : List Char)
    (h : ∀ a ∈ pySplit ',' s,
      a.head? = some '<' ∨ a.head? = some '>' ∨ a.head? = some '!') :
    convertVersionEntry s = .ok s := by
  have hs : s ≠ "*".toList := by
    intro he
    subst he
    rcases h ['*'] (by decide) with h1 | h1 | h1 <;> exact absurd h1 (by decide)
  rw [convertVersionEntry, if_neg hs]
  have hall : ∀ a ∈ pySplit ',' s, convertVersionConstraint a = .ok a := by
    intro a ha
    rcases a with _ | ⟨c, t⟩
    · rcases h [] ha with h1 | h1 | h1 <;> exact absurd h1 (by decide)
    · have hc : c = '<' ∨ c = '>' ∨ c = '!' := by
        rcases h (c :: t) ha with h1 | h1 | h1
        · exact Or.inl (Option.some.inj h1)
        · exact Or.inr (Or.inl (Option.some.inj h1))
        · exact Or.inr (Or.inr (Option.some.inj h1))
      exact convertVersionConstraint_passthrough c t hc
  rw [convertGroupList_all_ok _ hall]
  show Except.ok (joinSep ',' (pySplit ',' s)) = Except.ok s
  rw [joinSep_pySplit]

/-- Witness for C7: already-PEP-440 expressions of the claim pass through
unchanged. -/
theorem c7_pep440_passthrough_witness :
    convertVersionEntry ">=1.2.3".toList = .ok ">=1.2.3".toList ∧
    convertVersionEntry ">=1.0.0,<2.0.0,!=1.2.3".toList =
      .ok ">=1.0.0,<2.0.0,!=1.2.3".toList := by
  constructor
  · exact c7_pep440_passthrough ">=1.2.3".toList (by decide)
  · exact c7_pep440_passthrough ">=1.0.0,<2.0.0,!=1.2.3".toList (by decide)

/-- Counterexample to C7 as stated: `==0.*` is in PEP 440
comparison-operator form but the translator raises the `int()`
ValueError on it instead of returning it unchanged. -/
theorem c7_pep440_passthrough_counterexample :
    translate "==0.*" = .error (intLiteralErr "*".toList) ∧
    translate "==0.*" ≠ .ok "==0.*" := by
  constructor
  · decide
  · decide

/-- C8 (amended): an atomic sub-constraint beginning with `~` or `^` on
which the version pattern fails to match raises the invalid-constraint
ValueError whose message contains the offending sub-expression verbatim.
(This is not the only error kind on string inputs: non-integer components
reached by the first-non-zero scan raise the distinct `int()` ValueError,
whose message does not contain the sub-expression, see the
counterexample.) -/
theorem c8_invalid_constraint_error (cs : List Char)
    (hhead : cs.head? = some '~' ∨ cs.head? = some '^')
    (hfail : versionPatternMatch cs = none) :
    convertVersionConstraint cs =
      .error (.valueError ("Invalid version constraint: " ++ String.mk cs)) ∧
    ("Invalid version constraint: " ++ String.mk cs).toList =
      "Invalid version constraint: ".toList ++ cs := by
  constructor
  · simp only [convertVersionConstraint, hfail, if_pos hhead]
  · rfl

/-- Witness for C8: the invalid inputs named by the claim raise the
invalid-constraint error with the offending text. -/
theorem c8_invalid_constraint_error_witness :
    convertVersionConstraint "~a.b.c".toList =
      .error (.valueError "Invalid version constraint: ~a.b.c") ∧
    convertVersionConstraint "^a.b".toList =
      .error (.valueError "Invalid version constraint: ^a.b") := by
  constructor
  · exact (c8_invalid_constraint_error "~a.b.c".toList (by decide) (by decide)).1
  · exact (c8_invalid_constraint_error "^a.b".toList (by decide) (by decide)).1

/-- Counterexample to C8 as stated: on `^*` the translator raises the
`int()` ValueError, a different error whose message does not name the
sub-expression `^*`. -/
theorem c8_invalid_constraint_error_counterexample :
    translate "^*" = .error (intLiteralErr "*".toList) ∧
    intLiteralErr "*".toList ≠ .valueError ("Invalid version constraint: " ++ "^*") := by
  constructor
  · decide
  · decide

/-- C9: for a dependency record with a `git` key, the package name is the
basename of the git URL minus its extension, the recorded source table is
exactly the restriction of the record to the keys git, rev, tag and
branch that are present, and a second git record mapping to an
already-registered package name raises a fatal error rather than
overwriting the sources map. -/
theorem c9_git_entry_handling (sources : Sources) (entry : List (String × TomlVal))
    (url : String) (hgit : lookupA "git" entry = some (.vs url)) :
    (sources.lookup (gitPackageName url) = none →
      handleGitEntry sources entry =
        .ok (gitPackageName url,
          sources ++ [(gitPackageName url,
            entry.filter (fun kv => gitSourceKeys.contains kv.1))])) ∧
    (∀ tbl, sources.lookup (gitPackageName url) = some tbl →
      handleGitEntry sources entry =
        .error (.notImplementedError
          ("Can not handle duped sources with name " ++ gitPackageName url ++ "!"))) := by
  constructor
  · intro hnone
    simp only [handleGitEntry, hgit, hnone]
  · intro tbl hsome
    simp only [handleGitEntry, hgit, hsome]

/-- Witness for C9: a fresh git record registers under the URL basename
with only the source keys kept, and a duplicate name is refused. -/
theorem c9_git_entry_handling_witness :
    handleGitEntry []
        [("git", .vs "https://github.com/org/my-repo.git"), ("rev", .vs "abc123"),
          ("develop", .vb true)] =
      .ok ("my-repo",
        [("my-repo",
          [("git", .vs "https://github.com/org/my-repo.git"), ("rev", .vs "abc123")])]) ∧
    handleGitEntry [("my-repo", [])]
        [("git", .vs "https://github.com/org/my-repo.git")] =
      .error (.notImplementedError "Can not handle duped sources with name my-repo!") := by
  constructor
  · exact (c9_git_entry_handling []
      [("git", .vs "https://github.com/org/my-repo.git"), ("rev", .vs "abc123"),
        ("develop", .vb true)] "https://github.com/org/my-repo.git" rfl).1 rfl
  · exact (c9_git_entry_handling [("my-repo", [])]
      [("git", .vs "https://github.com/org/my-repo.git")]
      "https://github.com/org/my-repo.git" rfl).2 [] rfl

/-- C10: entries named `python` are excluded from every emitted
dependencies list (the same conversion function serves the main, dev and
group tables); a successful document conversion takes its
`requires-python` value from the translated `python` entry of the main
dependency table; and a document lacking that entry fails with a
KeyError. -/
theorem c10_python_requires_python :
    (∀ (resolve : String → String) (acc : DLAcc) (l : List (String × TomlVal)),
      convertDepsList resolve acc l =
        convertDepsList resolve acc (l.filter (fun kv => kv.1 ≠ "python"))) ∧
    (∀ (resolve : String → String) (pd : PoetryIn),
      lookupA "python" pd.dependencies = none →
      convertToPep508Core resolve pd = .error (.keyError "python")) ∧
    (∀ (resolve : String → String) (pd : PoetryIn) (out : ProjectOut),
      convertToPep508Core resolve pd = .ok out →
      ∃ v s0, lookupA "python" pd.dependencies = some v ∧
        convertVersionEntryFull [] v = .ok (out.requiresPython, s0)) := by
  refine ⟨?_, ?_, ?_⟩
  · intro resolve acc l
    exact convertDepsList_filter_python resolve l acc
  · intro resolve pd h
    simp only [convertToPep508Core, h]
  · intro resolve pd out h
    exact convertToPep508Core_requiresPython resolve pd out h

/-- Witness for C10: a concrete python entry is skipped by the deps-list
conversion, and a document without one fails. -/
theorem c10_python_requires_python_witness :
    convertDepsList (fun s => s) ⟨[], [], []⟩
        [("python", .vs "^3.9"), ("foo", .vs "^1.2")] =
      convertDepsList (fun s => s) ⟨[], [], []⟩ [("foo", .vs "^1.2")] ∧
    convertToPep508Core (fun s => s)
        { dependencies := [("foo", .vs "^1.2")], devDependencies := [], groups := [] } =
      .error (.keyError "python") := by
  constructor
  · exact c10_python_requires_python.1 (fun s => s) ⟨[], [], []⟩
      [("python", .vs "^3.9"), ("foo", .vs "^1.2")]
  · exact c10_python_requires_python.2.1 (fun s => s)
      { dependencies := [("foo", .vs "^1.2")], devDependencies := [], groups := [] } rfl

end P2U
